import Mathlib

/-!
Shallow embedding of the decoder-only transformer implementation in
`nbs/LLM_from_Scratch_1.ipynb` (repository `Ankur-singh/UnderstandingLLMs`),
together with proofs about its attention masking, sampling strategies,
generation loop, dataset slicing, loss computation and forward-pass
error behaviour.

Tensors are modelled as nested lists; float values are modelled as real
numbers (`ℝ`); logits fed to the pure sampling helpers are modelled as
rationals (`ℚ`) so that comparisons (argmax / top-k selection) stay
decidable.  Fallible tensor operations (embedding lookups out of range,
`torch.topk` with too large `k`, indexing an empty dimension) are
modelled with `Option`, `none` standing for the raised runtime error.
-/

open scoped BigOperators

/-! ## Causal attention mask (class `MultiheadAttention`, notebook lines 74-90) -/

/-- The registered buffer
`torch.triu(torch.ones(context, context), diagonal=1).bool()`:
entry `(i, j)` is `true` exactly when `j > i` (strictly above the diagonal). -/
def causalMaskMatrix (context : Nat) : List (List Bool) :=
  (List.range context).map (fun i => (List.range context).map (fun j => decide (i < j)))

/-- The slice `self.mask[:seqLen, :seqLen]` taken in `MultiheadAttention.forward`. -/
def maskSlice (context seqLen : Nat) : List (List Bool) :=
  ((causalMaskMatrix context).take seqLen).map (fun row => row.take seqLen)

/-- Modelled from the spec: `nn.MultiheadAttention` applies a boolean `attn_mask`
by excluding the masked score positions from the softmax normalisation, so a
masked position receives post-softmax probability exactly `0` and the
unmasked positions share weight `exp score / Σ exp score`.  One row of
post-softmax attention weights for one query position. -/
noncomputable def maskedSoftmaxRow (mask : List Bool) (scores : List ℝ) : List ℝ :=
  let w := List.zipWith (fun m s => if m then 0 else Real.exp s) mask scores
  w.map (fun x => x / w.sum)

/-! ## Pure sampling helpers (`topk`, `torch.argmax`, `torch.multinomial`,
notebook lines 212-222, 542-553 and 600-618) -/

/-- Index of the first maximal element (`torch.argmax` semantics: ties are
broken towards the first occurrence).  Defined for any linear order so it can
be used both on rational sampler-level logits and on the real logits produced
by the model forward pass. -/
def argmaxIdx {α : Type} [LinearOrder α] : List α → Nat
  | [] => 0
  | x :: xs => if (xs.getD (argmaxIdx xs) x) ≤ x then 0 else argmaxIdx xs + 1

/-- Number of indices that beat index `i` in `torch.topk` order: indices whose
logit is strictly larger, plus earlier indices with an equal logit.  This is
the stable (first-occurrence-wins) tie-breaking rule; `torch.topk` documents
ties as implementation-defined, and the stable rule is the one fixed by this
development. -/
def rank (v : List ℚ) (i : Nat) : Nat :=
  ((List.range v.length).filter
    (fun j => decide (v.getD i 0 < v.getD j 0 ∨ (v.getD j 0 = v.getD i 0 ∧ j < i)))).length

/-- The index set returned by `torch.topk(v, k)`: the `k` indices of largest
value under the stable tie-breaking rule, listed in increasing index order.
The notebook only consumes the index list zipped with the softmax of the
corresponding values, and that pairing is invariant under reordering, so the
increasing order is equivalent to torch's sorted-by-value order. -/
def topkIdxs (v : List ℚ) (k : Nat) : List Nat :=
  (List.range v.length).filter (fun i => decide (rank v i < k))

/-- `torch.softmax` over one row. -/
noncomputable def softmaxList (xs : List ℝ) : List ℝ :=
  xs.map (fun x => Real.exp x / (xs.map Real.exp).sum)

/-- `torch.softmax(topk_vals, dim=-1)` for one row: softmax of the values
gathered at the top-k indices. -/
noncomputable def softVals (v : List ℚ) (k : Nat) : List ℝ :=
  softmaxList ((topkIdxs v k).map (fun j => ((v.getD j 0 : ℚ) : ℝ)))

/-- One advanced-indexing assignment step of
`probs[:, topk_idxs] = torch.softmax(topk_vals, dim=-1)`:
since the row axis of `probs` is indexed with `:` while `topk_idxs` carries
its own row axis, every element write `(j, c)` stores value `c` into column
`j` of EVERY row of the matrix. -/
def scatterColumns (base : List (List ℝ)) (pairs : List (Nat × ℝ)) : List (List ℝ) :=
  pairs.foldl (fun mat p => mat.map (fun row => row.set p.1 p.2)) base

/-- The effect of `scatterColumns` on a single matrix row: sequentially write
each `(column, value)` pair into the row. -/
def rowScatter (row : List ℝ) (pairs : List (Nat × ℝ)) : List ℝ :=
  pairs.foldl (fun r p => r.set p.1 p.2) row

/-- The notebook function (lines 600-604)

`def topk(logits, k=5):` —
`topk_vals, topk_idxs = torch.topk(logits, k)`;
`probs = torch.zeros_like(logits)`;
`probs[:, topk_idxs] = torch.softmax(topk_vals, dim=-1)`;
`return probs`

for a (possibly multi-row) logits matrix.  The element writes are flattened
row-major over `topk_idxs`, matching torch's index-put order. -/
noncomputable def topkMatrixProbs (logits : List (List ℚ)) (k : Nat) : List (List ℝ) :=
  scatterColumns (logits.map (fun row => List.replicate row.length (0 : ℝ)))
    ((logits.map (fun row => (topkIdxs row k).zip (softVals row k))).flatten)

/-- Inverse-CDF characterisation of one draw of
`torch.multinomial(p, num_samples=1)`: with uniform randomness `r`, the drawn
index is the one whose cumulative-probability interval contains `r`. -/
def multinomialDrawSpec (p : List ℝ) (r : ℝ) (i : Nat) : Prop :=
  i < p.length ∧ (p.take i).sum ≤ r ∧ r < (p.take (i + 1)).sum

/-- The temperature strategy of the notebook `generate` (lines 542-553):
`probs = torch.softmax(logits / temp, dim=-1)`.  In floats, dividing by
`temp == 0` produces non-finite values and `torch.multinomial` then raises,
so the zero-temperature case is modelled as `none`; any other temperature
produces the softmax of the scaled logits. -/
noncomputable def tempScaledProbs (v : List ℚ) (temp : ℚ) : Option (List ℝ) :=
  if temp = 0 then none
  else some (softmaxList (v.map (fun q => ((q / temp : ℚ) : ℝ))))

/-- The top-k strategy probabilities for a single final-position logits row
(the notebook calls `topk` on a `[1, vocab]` tensor): `torch.topk` raises
when `k` exceeds the dimension size (modelled as `none`); otherwise the
scattered probability row is produced. -/
noncomputable def topkCallProbs (v : List ℚ) (k : Nat) : Option (List ℝ) :=
  if v.length < k then none
  else some ((topkMatrixProbs [v] k).getD 0 [])

/-- `torch.multinomial(p, 1)` accepts a probability vector exactly when it is
non-negative with positive total mass; a sampling call succeeds when its
probability computation succeeded and multinomial accepts the result. -/
def multinomialOk (p : Option (List ℝ)) : Prop :=
  ∃ q, p = some q ∧ (∀ x ∈ q, 0 ≤ x) ∧ 0 < q.sum

/-! ## Cross-entropy loss (training loop, notebook lines 390-397) -/

/-- Modelled from the spec: `F.cross_entropy(input, target)` with the default
mean reduction is the mean over rows of the negative log-probability that the
softmax of the row assigns to the target class.  Negative log-probability of
class `t` under the softmax of `row`. -/
noncomputable def negLogProbAt (row : List ℝ) (t : Nat) : ℝ :=
  -Real.log ((softmaxList row).getD t 0)

/-- `F.cross_entropy(input, target)` for a matrix of per-row logits and a
vector of target classes (mean reduction). -/
noncomputable def crossEntropyMean (rows : List (List ℝ)) (tgts : List Nat) : ℝ :=
  (((rows.zip tgts).map (fun p => negLogProbAt p.1 p.2)).sum) / ((rows.zip tgts).length : ℝ)

/-- The notebook training-step loss
`F.cross_entropy(logits.flatten(0, 1), y.flatten())`: the `[batch, seq]`
leading axes of both logits and targets are flattened before the loss. -/
noncomputable def trainingStepLoss (logits3 : List (List (List ℝ))) (targets2 : List (List Nat)) : ℝ :=
  crossEntropyMean logits3.flatten targets2.flatten

/-! ## `WikiTextDataset` (notebook lines 275-291) -/

/-- `WikiTextDataset.__getitem__`: item `idx` is the pair of slices
`tokens[idx*L : idx*L+L]` and `tokens[idx*L+1 : idx*L+1+L]`, each right-padded
with the tokenizer end-of-text id up to length `L` when the slice runs short. -/
def wikiTextItem (tokens : List Nat) (maxLen eot idx : Nat) : List Nat × List Nat :=
  let i := idx * maxLen
  let x := (tokens.drop i).take maxLen
  let y := (tokens.drop (i + 1)).take maxLen
  (x ++ List.replicate (maxLen - x.length) eot, y ++ List.replicate (maxLen - y.length) eot)

/-- `WikiTextDataset.__len__`: `math.ceil(len(self.tokens) / self.max_len)`,
modelled with exact rational division. -/
def wikiTextCount (tokens : List Nat) (maxLen : Nat) : Nat :=
  (Int.ceil ((tokens.length : ℚ) / (maxLen : ℚ))).toNat

/-! ## The GPT model (classes `MultiheadAttention`, `Block`, `GPT`,
notebook lines 74-132) -/

/-- An `nn.Linear` layer: `weight` has one row per output feature, and the
output is `weight · x + bias`. -/
structure LinearLayer where
  weight : List (List ℝ)
  bias : List ℝ

/-- Dot product of two equally long real vectors. -/
noncomputable def dot (xs ys : List ℝ) : ℝ :=
  (List.zipWith (fun a b => a * b) xs ys).sum

/-- Apply an `nn.Linear` layer. -/
noncomputable def linearF (l : LinearLayer) (x : List ℝ) : List ℝ :=
  List.zipWith (fun wrow b => dot wrow x + b) l.weight l.bias

/-- Elementwise vector addition (`+` on equally shaped tensors). -/
noncomputable def addVec (a b : List ℝ) : List ℝ :=
  List.zipWith (fun x y => x + y) a b

/-- `nn.LayerNorm` over one row with learned scale `g` and shift `b`
(PyTorch default `eps = 1e-5`). -/
noncomputable def layerNorm (g b x : List ℝ) : List ℝ :=
  let n : ℝ := (x.length : ℝ)
  let mu := x.sum / n
  let vr := (x.map (fun xi => (xi - mu) ^ 2)).sum / n
  List.zipWith (fun gb xi => (xi - mu) / Real.sqrt (vr + (1 / 100000 : ℝ)) * gb.1 + gb.2)
    (g.zip b) x

/-- `nn.GELU` activation (tanh form; the activation value is irrelevant to
every claim proved here, only that it is a pointwise map). -/
noncomputable def gelu (x : ℝ) : ℝ :=
  (1 / 2 : ℝ) * x * (1 + Real.tanh (Real.sqrt (2 / Real.pi) * (x + (44715 / 1000000 : ℝ) * x ^ 3)))

/-- Modelled from the spec: the parameters of `nn.MultiheadAttention`
(query/key/value input projections and the output projection) together with
the extra `self.proj` linear layer of the notebook `MultiheadAttention`
module. -/
structure MHA where
  wq : LinearLayer
  wk : LinearLayer
  wv : LinearLayer
  outProj : LinearLayer
  proj : LinearLayer

/-- The per-head slice of a projected vector: head `h` of head-dimension `d`
reads coordinates `[h*d, (h+1)*d)`. -/
def headSlice (x : List ℝ) (h d : Nat) : List ℝ :=
  (x.drop (h * d)).take d

/-- Scaled dot-product scores of one per-head query against all per-head keys:
`q · kᵀ / sqrt d`. -/
noncomputable def attnScores (d : Nat) (qh : List ℝ) (khs : List (List ℝ)) : List ℝ :=
  khs.map (fun kh => dot qh kh / Real.sqrt (d : ℝ))

/-- Weighted sum of the per-head value vectors with one row of attention
weights. -/
noncomputable def weightedVecSum (d : Nat) (ws : List ℝ) (vhs : List (List ℝ)) : List ℝ :=
  (List.zipWith (fun w vh => vh.map (fun c => w * c)) ws vhs).foldl addVec
    (List.replicate d (0 : ℝ))

/-- Modelled from the spec: `MultiheadAttention.forward` (notebook lines
85-90) around the library `nn.MultiheadAttention` semantics — the spec's
CausalAttention: project to queries/keys/values, split into `heads` sub-spaces
of size `embDim / heads`, per head apply masked scaled-dot-product attention
with the sliced causal mask (`seq_len = min(seq_len, self.context)`),
concatenate the heads, apply the library output projection and then the
module's own `self.proj`. -/
noncomputable def mhaForward (embDim heads context : Nat) (p : MHA) (xs : List (List ℝ)) :
    List (List ℝ) :=
  let s := min xs.length context
  let d := embDim / heads
  let q := xs.map (linearF p.wq)
  let k := xs.map (linearF p.wk)
  let v := xs.map (linearF p.wv)
  let attnOut := (List.range xs.length).map (fun i =>
    ((List.range heads).map (fun h =>
      let qh := headSlice (q.getD i []) h d
      let scores := attnScores d qh (k.map (fun kr => headSlice kr h d))
      let ws := maskedSoftmaxRow ((maskSlice context s).getD i []) scores
      weightedVecSum d ws (v.map (fun vr => headSlice vr h d)))).flatten)
  (attnOut.map (linearF p.outProj)).map (linearF p.proj)

/-- One notebook `Block`: causal attention and MLP sublayers with their
pre-normalisation layer norms. -/
structure Block where
  mha : MHA
  fc1 : LinearLayer
  fc2 : LinearLayer
  saNormG : List ℝ
  saNormB : List ℝ
  mlpNormG : List ℝ
  mlpNormB : List ℝ

/-- `Block.forward` (notebook lines 103-106):
`x = x + self.mha(self.sa_norm(x))` then `x = x + self.mlp(self.mlp_norm(x))`,
where `self.mlp` is `Linear(emb, 4*emb) → GELU → Linear(4*emb, emb)`. -/
noncomputable def blockForward (embDim heads context : Nat) (b : Block) (x : List (List ℝ)) :
    List (List ℝ) :=
  let x1 := List.zipWith addVec x
    (mhaForward embDim heads context b.mha (x.map (layerNorm b.saNormG b.saNormB)))
  List.zipWith addVec x1
    ((x1.map (layerNorm b.mlpNormG b.mlpNormB)).map
      (fun r => linearF b.fc2 ((linearF b.fc1 r).map gelu)))

/-- The notebook `GPT` module: positional and token embedding tables, the
block stack, the final layer norm and the bias-free output head. -/
structure GPT where
  embDim : Nat
  heads : Nat
  tokEmb : List (List ℝ)
  posEmb : List (List ℝ)
  blocks : List Block
  normG : List ℝ
  normB : List ℝ
  outputW : List (List ℝ)

/-- `config.context`: the number of positional-embedding rows. -/
def GPT.context (m : GPT) : Nat := m.posEmb.length

/-- `config.vocab`: the number of token-embedding rows. -/
def GPT.vocab (m : GPT) : Nat := m.tokEmb.length

/-- `GPT.forward` (notebook lines 123-128) on one token sequence:
`pos = torch.arange(seq_len)`, embedding lookups (an out-of-range lookup into
`nn.Embedding` raises, modelled as `none` — in particular any position index
`≥ context` fails), the block stack, the final layer norm and the output
head.  Returns the `[seq_len, vocab]` logits. -/
noncomputable def gptForward (m : GPT) (ids : List Nat) : Option (List (List ℝ)) := do
  let te ← ids.mapM (fun t => m.tokEmb.get? t)
  let pe ← (List.range ids.length).mapM (fun p => m.posEmb.get? p)
  let x0 := List.zipWith addVec te pe
  let xd := m.blocks.foldl (fun acc b => blockForward m.embDim m.heads m.context b acc) x0
  some ((xd.map (layerNorm m.normG m.normB)).map (fun r => m.outputW.map (fun wrow => dot wrow r)))

/-- `GPT.forward` on a `[batch, seq_len]` batch of token sequences. -/
noncomputable def gptForwardBatch (m : GPT) (xs : List (List Nat)) :
    Option (List (List (List ℝ))) :=
  xs.mapM (gptForward m)

/-- Dimension bookkeeping for a linear layer. -/
def wfLinear (outDim inDim : Nat) (l : LinearLayer) : Bool :=
  l.weight.length == outDim && l.weight.all (fun r => r.length == inDim)
    && l.bias.length == outDim

/-- Dimension bookkeeping for the attention parameters. -/
def wfMHA (e : Nat) (p : MHA) : Bool :=
  wfLinear e e p.wq && wfLinear e e p.wk && wfLinear e e p.wv
    && wfLinear e e p.outProj && wfLinear e e p.proj

/-- Dimension bookkeeping for one block. -/
def wfBlock (e : Nat) (b : Block) : Bool :=
  wfMHA e b.mha && wfLinear (4 * e) e b.fc1 && wfLinear e (4 * e) b.fc2
    && b.saNormG.length == e && b.saNormB.length == e
    && b.mlpNormG.length == e && b.mlpNormB.length == e

/-- A `GPT` whose parameter shapes match its configuration (what `GPT.__init__`
builds from a `ModelConfig`, including the asserted `emb_dim % heads == 0`). -/
def GPT.wellFormed (m : GPT) : Bool :=
  m.heads != 0 && m.embDim % m.heads == 0
    && m.tokEmb.all (fun r => r.length == m.embDim)
    && m.posEmb.all (fun r => r.length == m.embDim)
    && m.blocks.all (wfBlock m.embDim)
    && m.normG.length == m.embDim && m.normB.length == m.embDim
    && m.outputW.length == m.vocab && m.outputW.all (fun r => r.length == m.embDim)

/-! ## The generation loop (`generate`, notebook lines 212-222 / 607-618) -/

/-- The notebook `generate` loop: for `max_new_tokens` steps, run the model
over the FULL current token sequence (there is no truncation to the model
context), read the logits at the final position (`logits[:, -1, :]`, which
raises on an empty sequence dimension, modelled as `none`), obtain one token
id from the configured sampler and append it.  The greedy notebook version
uses `argmaxIdx` as `sampler`; the stochastic versions differ only in the
sampler. -/
noncomputable def generate (m : GPT) (sampler : List ℝ → Nat) :
    List Nat → Nat → Option (List Nat)
  | ids, 0 => some ids
  | ids, n + 1 => do
    let logits ← gptForward m ids
    let last ← logits.getLast?
    generate m sampler (ids ++ [sampler last]) n

/-- A tiny concrete well-formed model (`embDim = 1`, one head, one vocabulary
entry, `context = 1`, no blocks, all-zero weights) used as an evaluation
witness. -/
noncomputable def tinyGPT : GPT where
  embDim := 1
  heads := 1
  tokEmb := [[(0 : ℝ)]]
  posEmb := [[(0 : ℝ)]]
  blocks := []
  normG := [(0 : ℝ)]
  normB := [(0 : ℝ)]
  outputW := [[(0 : ℝ)]]

/-! ## General list lemmas -/

theorem listSum_eq_sum_getD (l : List ℝ) :
    l.sum = ∑ j in Finset.range l.length, l.getD j 0 := by
  induction l with
  | nil => simp
  | cons x xs ih =>
    rw [List.sum_cons, List.length_cons, Finset.sum_range_succ']
    simp only [List.getD_cons_succ, List.getD_cons_zero]
    rw [ih]; ring

theorem take_sum_eq_sum_getD (l : List ℝ) (i : Nat) :
    (l.take i).sum = ∑ j in Finset.range (min i l.length), l.getD j 0 := by
  rw [listSum_eq_sum_getD, List.length_take]
  refine Finset.sum_congr rfl fun j hj => ?_
  rw [Finset.mem_range, Nat.lt_min] at hj
  rw [List.getD_eq_getElem?_getD, List.getD_eq_getElem?_getD, List.getElem?_take_of_lt hj.1]

theorem getD_indep {α : Type} (l : List α) (i : Nat) (hi : i < l.length) (d e : α) :
    l.getD i d = l.getD i e := by
  rw [List.getD_eq_getElem?_getD, List.getD_eq_getElem?_getD, List.getElem?_eq_getElem hi]
  rfl

theorem mem_zipWith_exists {α β γ : Type} (f : α → β → γ) :
    ∀ (as : List α) (bs : List β) (c : γ), c ∈ List.zipWith f as bs →
      ∃ a ∈ as, ∃ b ∈ bs, c = f a b := by
  intro as
  induction as with
  | nil => intro bs c hc; simp at hc
  | cons a as ih =>
    intro bs c hc
    cases bs with
    | nil => simp at hc
    | cons b bs =>
      rw [List.zipWith_cons_cons] at hc
      rcases List.mem_cons.mp hc with he | hm
      · exact ⟨a, List.mem_cons_self _ _, b, List.mem_cons_self _ _, he⟩
      · obtain ⟨a2, ha2, b2, hb2, he⟩ := ih bs c hm
        exact ⟨a2, List.mem_cons_of_mem _ ha2, b2, List.mem_cons_of_mem _ hb2, he⟩

/-! ## Lemmas about `argmaxIdx` (the greedy sampler) -/

theorem argmaxIdx_lt_length {α : Type} [LinearOrder α] (l : List α) (hl : l ≠ []) :
    argmaxIdx l < l.length := by
  induction l with
  | nil => simp at hl
  | cons x xs ih =>
    rw [argmaxIdx]
    split
    · simp
    · rename_i h
      cases xs with
      | nil => simp [argmaxIdx] at h
      | cons y ys =>
        have := ih (by simp)
        simpa using Nat.succ_lt_succ this

theorem getD_le_argmaxIdx {α : Type} [LinearOrder α] (l : List α) (d : α) (i : Nat)
    (hi : i < l.length) : l.getD i d ≤ l.getD (argmaxIdx l) d := by
  induction l generalizing i d with
  | nil => simp at hi
  | cons x xs ih =>
    rw [argmaxIdx]
    split
    · rename_i h
      match i with
      | 0 => simp
      | j + 1 =>
        have hj : j < xs.length := by simpa using hi
        have hxs : xs ≠ [] := by
          intro hh; rw [hh] at hj; simp at hj
        have hmax : argmaxIdx xs < xs.length := argmaxIdx_lt_length xs hxs
        calc (x :: xs).getD (j + 1) d = xs.getD j d := by simp
        _ ≤ xs.getD (argmaxIdx xs) d := ih d j hj
        _ = xs.getD (argmaxIdx xs) x := getD_indep _ _ hmax _ _
        _ ≤ x := h
        _ = (x :: xs).getD 0 d := by simp
    · rename_i h
      push_neg at h
      have hxs : xs ≠ [] := by
        intro hh; rw [hh] at h; simp at h
      have hmax : argmaxIdx xs < xs.length := argmaxIdx_lt_length xs hxs
      match i with
      | 0 =>
        calc (x :: xs).getD 0 d = x := by simp
        _ ≤ xs.getD (argmaxIdx xs) x := le_of_lt h
        _ = xs.getD (argmaxIdx xs) d := getD_indep _ _ hmax _ _
        _ = (x :: xs).getD (argmaxIdx xs + 1) d := by simp
      | j + 1 =>
        have hj : j < xs.length := by simpa using hi
        calc (x :: xs).getD (j + 1) d = xs.getD j d := by simp
        _ ≤ xs.getD (argmaxIdx xs) d := ih d j hj
        _ = (x :: xs).getD (argmaxIdx xs + 1) d := by simp

theorem getD_lt_of_lt_argmaxIdx {α : Type} [LinearOrder α] (l : List α) (d : α) (i : Nat)
    (hlt : i < argmaxIdx l) : l.getD i d < l.getD (argmaxIdx l) d := by
  induction l generalizing i d with
  | nil => simp [argmaxIdx] at hlt
  | cons x xs ih =>
    rw [argmaxIdx] at hlt ⊢
    split at hlt
    · omega
    · rename_i h
      push_neg at h
      have hxs : xs ≠ [] := by
        intro hh; rw [hh] at h; simp at h
      have hmax : argmaxIdx xs < xs.length := argmaxIdx_lt_length xs hxs
      simp only [if_neg (not_le.mpr (lt_of_not_le (fun hc => absurd h (not_lt.mpr hc))))]
      match i with
      | 0 =>
        calc (x :: xs).getD 0 d = x := by simp
        _ < xs.getD (argmaxIdx xs) x := h
        _ = xs.getD (argmaxIdx xs) d := getD_indep _ _ hmax _ _
        _ = (x :: xs).getD (argmaxIdx xs + 1) d := by simp
      | j + 1 =>
        have hj : j < argmaxIdx xs := by omega
        calc (x :: xs).getD (j + 1) d = xs.getD j d := by simp
        _ < xs.getD (argmaxIdx xs) d := ih d j hj
        _ = (x :: xs).getD (argmaxIdx xs + 1) d := by simp

/-! ## Lemmas about `rank` and `topkIdxs` (the top-k selection) -/

theorem rank_argmaxIdx_eq_zero (v : List ℚ) : rank v (argmaxIdx v) = 0 := by
  rw [rank, List.length_eq_zero, List.filter_eq_nil_iff]
  intro j hj
  rw [List.mem_range] at hj
  simp only [decide_eq_true_eq, not_or, not_and]
  constructor
  · exact not_lt.mpr (getD_le_argmaxIdx v 0 j hj)
  · intro heq hlt
    exact absurd (getD_lt_of_lt_argmaxIdx v 0 j hlt) (by rw [heq]; exact lt_irrefl _)

theorem eq_argmaxIdx_of_rank_eq_zero (v : List ℚ) (i : Nat) (hi : i < v.length)
    (hr : rank v i = 0) : i = argmaxIdx v := by
  rw [rank, List.length_eq_zero, List.filter_eq_nil_iff] at hr
  have hv : v ≠ [] := by intro hh; rw [hh] at hi; simp at hi
  have hm : argmaxIdx v < v.length := argmaxIdx_lt_length v hv
  have h1 := hr (argmaxIdx v) (List.mem_range.mpr hm)
  simp only [decide_eq_true_eq, not_or, not_and] at h1
  have hle : v.getD (argmaxIdx v) 0 ≤ v.getD i 0 := not_lt.mp h1.1
  have hge : v.getD i 0 ≤ v.getD (argmaxIdx v) 0 := getD_le_argmaxIdx v 0 i hi
  have heq : v.getD (argmaxIdx v) 0 = v.getD i 0 := le_antisymm hle hge
  rcases Nat.lt_trichotomy i (argmaxIdx v) with hlt | he | hgt
  · exact absurd (getD_lt_of_lt_argmaxIdx v 0 i hlt) (by rw [heq]; simp)
  · exact he
  · exact absurd (h1.2 heq) (by simpa using hgt)

theorem rank_lt_iff_zero (v : List ℚ) (i : Nat) : rank v i < 1 ↔ rank v i = 0 := by omega

theorem mem_topkIdxs (v : List ℚ) (k i : Nat) :
    i ∈ topkIdxs v k ↔ i < v.length ∧ rank v i < k := by
  simp [topkIdxs, List.mem_filter, List.mem_range]

theorem topkIdxs_nodup (v : List ℚ) (k : Nat) : (topkIdxs v k).Nodup :=
  (List.nodup_range _).filter _

theorem range_filter_eq_singleton (n m : Nat) (hm : m < n) :
    (List.range n).filter (fun i => decide (i = m)) = [m] := by
  induction n with
  | zero => omega
  | succ n ih =>
    rw [List.range_succ, List.filter_append]
    by_cases h : m < n
    · rw [ih h]
      have : n ≠ m := by omega
      simp [this]
    · have hmn : m = n := by omega
      subst hmn
      have : (List.range m).filter (fun i => decide (i = m)) = [] := by
        rw [List.filter_eq_nil_iff]
        intro a ha
        rw [List.mem_range] at ha
        simp; omega
      rw [this]
      simp

theorem topkIdxs_one (v : List ℚ) (hv : v ≠ []) : topkIdxs v 1 = [argmaxIdx v] := by
  rw [topkIdxs]
  have hm : argmaxIdx v < v.length := argmaxIdx_lt_length v hv
  rw [List.filter_congr (fun i hi => ?_), range_filter_eq_singleton _ _ hm]
  rw [List.mem_range] at hi
  simp only [decide_eq_decide, rank_lt_iff_zero]
  constructor
  · exact eq_argmaxIdx_of_rank_eq_zero v i hi
  · intro he; subst he; exact rank_argmaxIdx_eq_zero v

theorem topkIdxs_zero (v : List ℚ) : topkIdxs v 0 = [] := by
  rw [topkIdxs, List.filter_eq_nil_iff]
  intro a _
  simp

/-! ## Lemmas about the scatter assignment -/

theorem scatterColumns_singleton (row : List ℝ) (pairs : List (Nat × ℝ)) :
    scatterColumns [row] pairs = [rowScatter row pairs] := by
  induction pairs generalizing row with
  | nil => simp [scatterColumns, rowScatter]
  | cons p ps ih =>
    rw [scatterColumns, rowScatter, List.foldl_cons, List.foldl_cons]
    exact ih (row.set p.1 p.2)

theorem rowScatter_length (row : List ℝ) (pairs : List (Nat × ℝ)) :
    (rowScatter row pairs).length = row.length := by
  induction pairs generalizing row with
  | nil => simp [rowScatter]
  | cons p ps ih =>
    simp only [rowScatter, List.foldl_cons] at ih ⊢
    rw [ih, List.length_set]

theorem rowScatter_getD_not_mem (pairs : List (Nat × ℝ)) (row : List ℝ) (i : Nat)
    (h : i ∉ pairs.map Prod.fst) : (rowScatter row pairs).getD i 0 = row.getD i 0 := by
  induction pairs generalizing row with
  | nil => simp [rowScatter]
  | cons p ps ih =>
    rw [List.map_cons, List.mem_cons] at h
    push_neg at h
    simp only [rowScatter, List.foldl_cons] at ih ⊢
    rw [ih _ h.2, List.getD_eq_getElem?_getD, List.getD_eq_getElem?_getD,
      List.getElem?_set_ne (fun hh => h.1 hh.symm)]

theorem sum_set_of_getD_zero (row : List ℝ) (j : Nat) (c : ℝ) (hj : j < row.length)
    (hz : row.getD j 0 = 0) : (row.set j c).sum = row.sum + c := by
  rw [listSum_eq_sum_getD, listSum_eq_sum_getD, List.length_set]
  have hjmem : j ∈ Finset.range row.length := Finset.mem_range.mpr hj
  rw [← Finset.add_sum_erase _ _ hjmem, ← Finset.add_sum_erase _ _ hjmem]
  have h1 : (row.set j c).getD j 0 = c := by
    rw [List.getD_eq_getElem?_getD, List.getElem?_set_self hj]; rfl
  have h2 : ∀ x ∈ (Finset.range row.length).erase j,
      (row.set j c).getD x 0 = row.getD x 0 := by
    intro x hx
    have hne : j ≠ x := fun hh => (Finset.mem_erase.mp hx).1 hh.symm
    rw [List.getD_eq_getElem?_getD, List.getD_eq_getElem?_getD, List.getElem?_set_ne hne]
  rw [h1, Finset.sum_congr rfl h2, hz]
  ring

theorem rowScatter_sum (pairs : List (Nat × ℝ)) (row : List ℝ)
    (hnd : (pairs.map Prod.fst).Nodup)
    (hb : ∀ p ∈ pairs, p.1 < row.length ∧ row.getD p.1 0 = 0) :
    (rowScatter row pairs).sum = row.sum + (pairs.map Prod.snd).sum := by
  induction pairs generalizing row with
  | nil => simp [rowScatter]
  | cons p ps ih =>
    rw [List.map_cons, List.nodup_cons] at hnd
    have hp := hb p (List.mem_cons_self p ps)
    simp only [rowScatter, List.foldl_cons] at ih ⊢
    rw [ih (row.set p.1 p.2) hnd.2 ?_, sum_set_of_getD_zero row p.1 p.2 hp.1 hp.2]
    · simp [add_assoc]
    · intro q hq
      have hqb := hb q (List.mem_cons_of_mem p hq)
      refine ⟨by rw [List.length_set]; exact hqb.1, ?_⟩
      have hne : p.1 ≠ q.1 := by
        intro hh
        exact hnd.1 (hh ▸ List.mem_map_of_mem Prod.fst hq)
      rw [List.getD_eq_getElem?_getD, List.getElem?_set_ne hne,
        ← List.getD_eq_getElem?_getD]
      exact hqb.2

theorem mem_rowScatter (pairs : List (Nat × ℝ)) (row : List ℝ) (x : ℝ)
    (hx : x ∈ rowScatter row pairs) : x ∈ row ∨ x ∈ pairs.map Prod.snd := by
  induction pairs generalizing row with
  | nil => exact Or.inl (by simpa [rowScatter] using hx)
  | cons p ps ih =>
    simp only [rowScatter, List.foldl_cons] at hx ih
    rcases ih (row.set p.1 p.2) hx with h | h
    · rcases List.mem_or_eq_of_mem_set h with h2 | h2
      · exact Or.inl h2
      · exact Or.inr (by rw [List.map_cons, h2]; exact List.mem_cons_self _ _)
    · exact Or.inr (by rw [List.map_cons]; exact List.mem_cons_of_mem _ h)

/-! ## Lemmas about `softmaxList` and the top-k probability row -/

theorem sum_map_div (l : List ℝ) (c : ℝ) :
    (l.map (fun x => x / c)).sum = l.sum / c := by
  induction l with
  | nil => simp
  | cons x xs ih => simp [ih, add_div]

theorem softmaxList_sum (xs : List ℝ) (h : xs ≠ []) : (softmaxList xs).sum = 1 := by
  have hpos : 0 < (xs.map Real.exp).sum := by
    apply List.sum_pos
    · intro x hx
      rw [List.mem_map] at hx
      obtain ⟨a, _, ha⟩ := hx
      rw [← ha]; exact Real.exp_pos a
    · simpa using h
  rw [softmaxList]
  have hmm : (xs.map fun x => Real.exp x / (xs.map Real.exp).sum)
      = (xs.map Real.exp).map (fun y => y / (xs.map Real.exp).sum) := by
    rw [List.map_map]; rfl
  rw [hmm, sum_map_div, div_self (ne_of_gt hpos)]

theorem softmaxList_nonneg (xs : List ℝ) (x : ℝ) (hx : x ∈ softmaxList xs) : 0 ≤ x := by
  rw [softmaxList, List.mem_map] at hx
  obtain ⟨a, _, ha⟩ := hx
  rw [← ha]
  apply div_nonneg (Real.exp_pos a).le
  apply List.sum_nonneg
  intro y hy
  rw [List.mem_map] at hy
  obtain ⟨b, _, hb⟩ := hy
  rw [← hb]; exact (Real.exp_pos b).le

theorem softmaxList_length (xs : List ℝ) : (softmaxList xs).length = xs.length := by
  simp [softmaxList]

theorem topkRow_eq (v : List ℚ) (k : Nat) :
    (topkMatrixProbs [v] k).getD 0 []
      = rowScatter (List.replicate v.length 0) ((topkIdxs v k).zip (softVals v k)) := by
  rw [topkMatrixProbs]
  simp only [List.map_cons, List.map_nil, List.flatten_cons, List.flatten_nil,
    List.append_nil]
  rw [scatterColumns_singleton]
  rfl

theorem topkPairs_map_fst (v : List ℚ) (k : Nat) :
    (((topkIdxs v k).zip (softVals v k)).map Prod.fst) = topkIdxs v k := by
  apply List.map_fst_zip
  rw [softVals, softmaxList_length, List.length_map]

theorem topkPairs_map_snd (v : List ℚ) (k : Nat) :
    (((topkIdxs v k).zip (softVals v k)).map Prod.snd) = softVals v k := by
  apply List.map_snd_zip
  rw [softVals, softmaxList_length, List.length_map]

theorem topkIdxs_ne_nil (v : List ℚ) (k : Nat) (hk : 1 ≤ k) (hv : v ≠ []) :
    topkIdxs v k ≠ [] := by
  intro hh
  have hm : argmaxIdx v ∈ topkIdxs v k := by
    rw [mem_topkIdxs]
    refine ⟨argmaxIdx_lt_length v hv, ?_⟩
    rw [rank_argmaxIdx_eq_zero v]
    omega
  rw [hh] at hm
  simp at hm

theorem topkRow_zero_not_mem (v : List ℚ) (k i : Nat) (hi : i ∉ topkIdxs v k) :
    ((topkMatrixProbs [v] k).getD 0 []).getD i 0 = 0 := by
  rw [topkRow_eq, rowScatter_getD_not_mem _ _ _ (by rw [topkPairs_map_fst]; exact hi)]
  rw [List.getD_eq_getElem?_getD, List.getElem?_replicate]
  split <;> rfl

theorem topkRow_sum_one (v : List ℚ) (k : Nat) (hk : 1 ≤ k) (hv : v ≠ []) :
    ((topkMatrixProbs [v] k).getD 0 []).sum = 1 := by
  rw [topkRow_eq, rowScatter_sum _ _ ?_ ?_]
  · rw [topkPairs_map_snd, softVals, softmaxList_sum, List.sum_replicate]
    · simp
    · simp only [ne_eq, List.map_eq_nil_iff]
      exact topkIdxs_ne_nil v k hk hv
  · rw [topkPairs_map_fst]
    exact topkIdxs_nodup v k
  · intro p hp
    have h1 := (List.of_mem_zip hp).1
    rw [mem_topkIdxs] at h1
    refine ⟨by rw [List.length_replicate]; exact h1.1, ?_⟩
    rw [List.getD_eq_getElem?_getD, List.getElem?_replicate]
    split <;> rfl

theorem topkRow_one_eq (v : List ℚ) (hv : v ≠ []) :
    (topkMatrixProbs [v] 1).getD 0 []
      = (List.replicate v.length (0 : ℝ)).set (argmaxIdx v) 1 := by
  rw [topkRow_eq, topkIdxs_one v hv]
  have hsv : softVals v 1 = [1] := by
    rw [softVals, topkIdxs_one v hv, List.map_cons, List.map_nil, softmaxList]
    simp [div_self (Real.exp_ne_zero _)]
  rw [hsv]
  simp [rowScatter]

theorem set_replicate_take_sum (n m i : Nat) (c : ℝ) (hm : m < n) :
    ((((List.replicate n (0 : ℝ)).set m c).take i).sum) = if m < i then c else 0 := by
  rw [take_sum_eq_sum_getD]
  have hlen : ((List.replicate n (0 : ℝ)).set m c).length = n := by
    rw [List.length_set, List.length_replicate]
  rw [hlen]
  have hgd : ∀ j, ((List.replicate n (0 : ℝ)).set m c).getD j 0
      = if j = m then (if m < n then c else 0) else 0 := by
    intro j
    by_cases hj : j = m
    · subst hj
      rw [List.getD_eq_getElem?_getD, if_pos rfl, if_pos (by simpa using hm)]
      rw [List.getElem?_set_self (by simpa using hm)]; rfl
    · rw [List.getD_eq_getElem?_getD, if_neg hj,
        List.getElem?_set_ne (fun hh => hj hh.symm), List.getElem?_replicate]
      split <;> rfl
  rw [Finset.sum_congr rfl (fun j _ => hgd j)]
  rw [Finset.sum_ite_eq' (Finset.range (min i n)) m (fun _ => if m < n then c else 0)]
  by_cases hmi : m < i
  · rw [if_pos (by rw [Finset.mem_range]; omega), if_pos hmi, if_pos hm]
  · rw [if_neg (by rw [Finset.mem_range]; omega), if_neg hmi]

/-! ## Lemmas about the causal mask -/

theorem maskSlice_getD (context s i : Nat) (hs : s ≤ context) (hi : i < s) :
    (maskSlice context s).getD i [] = (List.range s).map (fun j => decide (i < j)) := by
  have hic : i < context := lt_of_lt_of_le hi hs
  simp only [maskSlice, causalMaskMatrix, List.getD_eq_getElem?_getD, List.getElem?_map,
    List.getElem?_take_of_lt hi, List.getElem?_range hic, Option.map_some', Option.getD_some]
  rw [← List.map_take, List.take_range, Nat.min_eq_left hs]

/-! ## Lemmas about flattening for the loss computation -/

theorem flatten_zip_flatten {α β : Type} (L : List (List α)) (T : List (List β))
    (hL : L.length = T.length) (h : ∀ p ∈ L.zip T, p.1.length = p.2.length) :
    L.flatten.zip T.flatten = ((L.zip T).map (fun p => p.1.zip p.2)).flatten := by
  induction L generalizing T with
  | nil =>
    have hT : T = [] := by
      cases T with
      | nil => rfl
      | cons t ts => simp at hL
    subst hT; simp
  | cons l ls ih =>
    cases T with
    | nil => simp at hL
    | cons t ts =>
      simp only [List.flatten_cons, List.zip_cons_cons, List.map_cons]
      rw [List.zip_append (h (l, t) (by simp))]
      rw [ih ts (by simpa using hL) (fun p hp => h p (List.mem_cons_of_mem _ hp))]

theorem flatten_length_const {α : Type} (L : List (List α)) (S : Nat)
    (h : ∀ r ∈ L, r.length = S) : L.flatten.length = L.length * S := by
  induction L with
  | nil => simp
  | cons l ls ih =>
    rw [List.flatten_cons, List.length_append, List.length_cons,
      h l (List.mem_cons_self l ls), ih (fun r hr => h r (List.mem_cons_of_mem _ hr))]
    ring

/-! ## Lemmas about the dataset slices -/

theorem pad_slice_length (tokens : List Nat) (a L eot : Nat) :
    ((tokens.drop a).take L ++
      List.replicate (L - ((tokens.drop a).take L).length) eot).length = L := by
  rw [List.length_append, List.length_replicate, List.length_take]
  omega

theorem pad_slice_getD (tokens : List Nat) (a L eot j : Nat) (hj : j < L) :
    ((tokens.drop a).take L ++
      List.replicate (L - ((tokens.drop a).take L).length) eot).getD j 0
    = if a + j < tokens.length then tokens.getD (a + j) 0 else eot := by
  have hxlen : ((tokens.drop a).take L).length = min L (tokens.length - a) := by
    rw [List.length_take, List.length_drop]
  by_cases hcase : j < ((tokens.drop a).take L).length
  · have hin : a + j < tokens.length := by omega
    rw [if_pos hin, List.getD_eq_getElem?_getD, List.getElem?_append_left hcase,
      List.getElem?_take_of_lt hj, List.getElem?_drop, List.getD_eq_getElem?_getD]
  · have hout : ¬(a + j < tokens.length) := by omega
    rw [if_neg hout, List.getD_eq_getElem?_getD,
      List.getElem?_append_right (by omega), List.getElem?_replicate,
      if_pos (by omega)]
    rfl

theorem wikiTextCount_eq (tokens : List Nat) (L : Nat) (hL : 0 < L) :
    wikiTextCount tokens L = (tokens.length + L - 1) / L := by
  set T := tokens.length with hT
  set q := (T + L - 1) / L with hq
  have hdm : L * q + (T + L - 1) % L = T + L - 1 := by
    rw [hq]; exact Nat.div_add_mod _ _
  have hdm2 : q * L = L * q := Nat.mul_comm q L
  have hmod := Nat.mod_lt (T + L - 1) hL
  have h1 : T ≤ q * L := by omega
  have h2 : q * L < T + L := by omega
  have hLQ : (0 : ℚ) < (L : ℚ) := by exact_mod_cast hL
  have hceil : Int.ceil ((T : ℚ) / (L : ℚ)) = (q : ℤ) := by
    rw [Int.ceil_eq_iff]
    constructor
    · rw [lt_div_iff hLQ]
      have hc : ((q * L : ℕ) : ℚ) < ((T + L : ℕ) : ℚ) := by exact_mod_cast h2
      push_cast at hc ⊢
      linarith
    · rw [div_le_iff hLQ]
      have hc : ((T : ℕ) : ℚ) ≤ ((q * L : ℕ) : ℚ) := by exact_mod_cast h1
      push_cast at hc ⊢
      linarith
  rw [wikiTextCount, ← hT, hceil, Int.toNat_ofNat]

/-! ## Lemmas about `Option`-valued `mapM` (batched tensor operations) -/

theorem optionMapM_none {α β : Type} (f : α → Option β) (l : List α) (a : α)
    (ha : a ∈ l) (hf : f a = none) : l.mapM f = none := by
  induction l with
  | nil => simp at ha
  | cons x xs ih =>
    rw [List.mapM_cons]
    rcases List.mem_cons.mp ha with he | hm
    · subst he
      rw [hf]
      rfl
    · cases hx : f x with
      | none => rfl
      | some b =>
        rw [ih hm]
        rfl

theorem optionMapM_some_spec {α β : Type} (f : α → Option β) :
    ∀ (l : List α) (r : List β), l.mapM f = some r →
      r.length = l.length ∧ ∀ b ∈ r, ∃ a ∈ l, f a = some b := by
  intro l
  induction l with
  | nil =>
    intro r hr
    simp only [List.mapM_nil] at hr
    cases hr
    simp
  | cons x xs ih =>
    intro r hr
    rw [List.mapM_cons] at hr
    cases hx : f x with
    | none => rw [hx] at hr; exact Option.noConfusion hr
    | some b =>
      rw [hx] at hr
      cases hxs : xs.mapM f with
      | none =>
        rw [hxs] at hr
        exact Option.noConfusion hr
      | some bs =>
        rw [hxs] at hr
        have hrc : r = b :: bs := by
          simpa using hr.symm
        subst hrc
        obtain ⟨hlen, hmem⟩ := ih bs hxs
        constructor
        · simp [hlen]
        · intro c hc
          rcases List.mem_cons.mp hc with he | hm
          · exact ⟨x, List.mem_cons_self x xs, he ▸ hx⟩
          · obtain ⟨a, haxs, hfa⟩ := hmem c hm
            exact ⟨a, List.mem_cons_of_mem x haxs, hfa⟩

theorem optionMapM_isSome {α β : Type} (f : α → Option β) (l : List α)
    (h : ∀ a ∈ l, ∃ b, f a = some b) : ∃ r, l.mapM f = some r := by
  induction l with
  | nil => exact ⟨[], rfl⟩
  | cons x xs ih =>
    obtain ⟨b, hb⟩ := h x (List.mem_cons_self x xs)
    obtain ⟨bs, hbs⟩ := ih (fun a ha => h a (List.mem_cons_of_mem x ha))
    refine ⟨b :: bs, ?_⟩
    rw [List.mapM_cons, hb, hbs]
    rfl

/-! ## Shape lemmas for the forward pass -/

theorem linearF_length (l : LinearLayer) (x : List ℝ) (outDim inDim : Nat)
    (h : wfLinear outDim inDim l = true) : (linearF l x).length = outDim := by
  simp only [wfLinear, Bool.and_eq_true, beq_iff_eq] at h
  rw [linearF, List.length_zipWith, h.1.1, h.2]
  exact Nat.min_self outDim

theorem mhaForward_length (embDim heads context : Nat) (p : MHA) (xs : List (List ℝ))
    (hp : wfMHA embDim p = true) :
    (mhaForward embDim heads context p xs).length = xs.length
    ∧ ∀ r ∈ mhaForward embDim heads context p xs, r.length = embDim := by
  simp only [wfMHA, Bool.and_eq_true] at hp
  constructor
  · rw [mhaForward]
    simp
  · intro r hr
    rw [mhaForward] at hr
    simp only [List.mem_map] at hr
    obtain ⟨r2, _, hr2⟩ := hr
    rw [← hr2]
    exact linearF_length _ _ _ embDim hp.2

theorem blockForward_shape (embDim heads context : Nat) (b : Block) (x : List (List ℝ))
    (hb : wfBlock embDim b = true) (hx : ∀ r ∈ x, r.length = embDim) :
    (blockForward embDim heads context b x).length = x.length
    ∧ ∀ r ∈ blockForward embDim heads context b x, r.length = embDim := by
  simp only [wfBlock, Bool.and_eq_true] at hb
  have hmha := mhaForward_length embDim heads context b.mha
    (x.map (layerNorm b.saNormG b.saNormB)) hb.1.1.1.1.1.1
  constructor
  · rw [blockForward]
    simp only [List.length_zipWith, List.length_map]
    rw [hmha.1]
    simp
  · intro r hr
    rw [blockForward] at hr
    obtain ⟨a, ha, bb, hbb, he⟩ := mem_zipWith_exists _ _ _ r hr
    obtain ⟨a1, ha1, b1, hb1, he1⟩ := mem_zipWith_exists _ _ _ a ha
    have hlen_a : a.length = embDim := by
      rw [he1, addVec, List.length_zipWith]
      rw [hx a1 ha1]
      rw [hmha.2 b1 hb1]
      exact Nat.min_self embDim
    have hlen_bb : bb.length = embDim := by
      rw [List.mem_map] at hbb
      obtain ⟨c, _, hc⟩ := hbb
      rw [← hc]
      exact linearF_length _ _ _ (4 * embDim) hb.1.1.1.1.2
    rw [he, addVec, List.length_zipWith, hlen_a, hlen_bb]
    exact Nat.min_self embDim

theorem decoder_shape (embDim heads context : Nat) (blocks : List Block)
    (hbs : blocks.all (wfBlock embDim) = true) (x : List (List ℝ))
    (hx : ∀ r ∈ x, r.length = embDim) :
    (blocks.foldl (fun acc b => blockForward embDim heads context b acc) x).length = x.length
    ∧ ∀ r ∈ blocks.foldl (fun acc b => blockForward embDim heads context b acc) x,
        r.length = embDim := by
  induction blocks generalizing x with
  | nil => exact ⟨rfl, hx⟩
  | cons b bs ih =>
    rw [List.all_cons, Bool.and_eq_true] at hbs
    have hstep := blockForward_shape embDim heads context b x hbs.1 hx
    have hrest := ih hbs.2 (blockForward embDim heads context b x) hstep.2
    rw [List.foldl_cons]
    exact ⟨hrest.1.trans hstep.1, hrest.2⟩

theorem gptForward_some (m : GPT) (hm : m.wellFormed = true) (ids : List Nat)
    (hlen : ids.length ≤ m.context) (hvalid : ∀ t ∈ ids, t < m.vocab) :
    ∃ lg, gptForward m ids = some lg ∧ lg.length = ids.length
      ∧ ∀ row ∈ lg, row.length = m.vocab := by
  simp only [GPT.wellFormed, Bool.and_eq_true, beq_iff_eq, bne_iff_ne, ne_eq] at hm
  obtain ⟨te, hte⟩ := optionMapM_isSome (fun t => m.tokEmb.get? t) ids (by
    intro t ht
    show ∃ b, m.tokEmb.get? t = some b
    rw [List.get?_eq_getElem?]
    exact ⟨_, List.getElem?_eq_getElem (hvalid t ht)⟩)
  obtain ⟨pe, hpe⟩ := optionMapM_isSome (fun p => m.posEmb.get? p) (List.range ids.length) (by
    intro p hp
    rw [List.mem_range] at hp
    show ∃ b, m.posEmb.get? p = some b
    rw [List.get?_eq_getElem?]
    have hctx : m.context = m.posEmb.length := rfl
    exact ⟨_, List.getElem?_eq_getElem (by omega)⟩)
  have hte_spec := optionMapM_some_spec _ ids te hte
  have hpe_spec := optionMapM_some_spec _ (List.range ids.length) pe hpe
  have hte_rows : ∀ r ∈ te, r.length = m.embDim := by
    intro r hr
    obtain ⟨t, _, hget⟩ := hte_spec.2 r hr
    rw [List.get?_eq_getElem?] at hget
    have hmem : r ∈ m.tokEmb := List.getElem?_mem hget
    have hall := hm.1.1.1.1.1.1.2
    rw [List.all_eq_true] at hall
    simpa using hall r hmem
  have hpe_rows : ∀ r ∈ pe, r.length = m.embDim := by
    intro r hr
    obtain ⟨p, _, hget⟩ := hpe_spec.2 r hr
    rw [List.get?_eq_getElem?] at hget
    have hmem : r ∈ m.posEmb := List.getElem?_mem hget
    have hall := hm.1.1.1.1.1.2
    rw [List.all_eq_true] at hall
    simpa using hall r hmem
  have hx0_rows : ∀ r ∈ List.zipWith addVec te pe, r.length = m.embDim := by
    intro r hr
    obtain ⟨a, ha, b, hb, he⟩ := mem_zipWith_exists _ _ _ r hr
    rw [he, addVec, List.length_zipWith, hte_rows a ha, hpe_rows b hb]
    exact Nat.min_self _
  have hx0_len : (List.zipWith addVec te pe).length = ids.length := by
    rw [List.length_zipWith, hte_spec.1, hpe_spec.1, List.length_range]
    exact Nat.min_self _
  have hdec := decoder_shape m.embDim m.heads m.context m.blocks hm.1.1.1.1.2
    (List.zipWith addVec te pe) hx0_rows
  refine ⟨(((m.blocks.foldl (fun acc b => blockForward m.embDim m.heads m.context b acc)
      (List.zipWith addVec te pe)).map (layerNorm m.normG m.normB)).map
      (fun r => m.outputW.map (fun wrow => dot wrow r))), ?_, ?_, ?_⟩
  · rw [gptForward, hte, Option.bind_eq_bind, Option.some_bind, hpe,
      Option.some_bind]
  · simp only [List.length_map]
    rw [hdec.1, hx0_len]
  · intro row hrow
    simp only [List.mem_map] at hrow
    obtain ⟨r2, _, hr2⟩ := hrow
    rw [← hr2, List.length_map]
    exact hm.1.2

theorem gptForward_none (m : GPT) (ids : List Nat) (hlen : m.context < ids.length) :
    gptForward m ids = none := by
  have hpe : (List.range ids.length).mapM (fun p => m.posEmb.get? p) = none := by
    apply optionMapM_none _ _ m.context (List.mem_range.mpr hlen)
    rw [List.get?_eq_getElem?]
    exact List.getElem?_eq_none (le_refl _)
  rw [gptForward]
  cases hte : ids.mapM (fun t => m.tokEmb.get? t) with
  | none => rfl
  | some te =>
    rw [Option.bind_eq_bind, Option.some_bind, hpe]
    rfl

/-! ## Lemmas about the generation loop -/

theorem generate_success (m : GPT) (hm : m.wellFormed = true)
    (sampler : List ℝ → Nat) (hs : ∀ l, l ≠ [] → sampler l < l.length) :
    ∀ (k : Nat) (p : List Nat), p ≠ [] → (∀ t ∈ p, t < m.vocab) →
      p.length + k ≤ m.context + 1 →
      ∃ out, generate m sampler p k = some out ∧ out.length = p.length + k := by
  intro k
  induction k with
  | zero =>
    intro p _ _ _
    exact ⟨p, by rw [generate], by omega⟩
  | succ n ih =>
    intro p hp hvalid hlen
    have hplen : 0 < p.length := List.length_pos.mpr hp
    have hple : p.length ≤ m.context := by omega
    obtain ⟨lg, hlg, hlglen, hlgrows⟩ := gptForward_some m hm p hple hvalid
    have hlgne : lg ≠ [] := by
      intro hh
      rw [hh] at hlglen
      simp at hlglen
      omega
    have hlast : ∃ last, lg.getLast? = some last :=
      Option.isSome_iff_exists.mp (List.getLast?_isSome.mpr hlgne)
    obtain ⟨last, hlast⟩ := hlast
    have hlastmem : last ∈ lg := List.mem_of_getLast?_eq_some hlast
    have hlastlen : last.length = m.vocab := hlgrows last hlastmem
    have hvocab : 0 < m.vocab := by
      obtain ⟨t, ht⟩ := List.exists_mem_of_ne_nil p hp
      exact Nat.lt_of_le_of_lt (Nat.zero_le t) (hvalid t ht)
    have hlastne : last ≠ [] := by
      intro hh
      rw [hh] at hlastlen
      simp at hlastlen
      omega
    have hsampler : sampler last < m.vocab := hlastlen ▸ hs last hlastne
    have hnext : ∀ t ∈ p ++ [sampler last], t < m.vocab := by
      intro t ht
      rcases List.mem_append.mp ht with h1 | h1
      · exact hvalid t h1
      · rw [List.mem_singleton] at h1
        exact h1 ▸ hsampler
    obtain ⟨out, hout, houtlen⟩ := ih (p ++ [sampler last])
      (by simp) hnext (by rw [List.length_append]; simp; omega)
    refine ⟨out, ?_, ?_⟩
    · rw [generate, hlg, Option.bind_eq_bind, Option.some_bind, hlast,
        Option.bind_eq_bind, Option.some_bind]
      exact hout
    · rw [houtlen, List.length_append]
      simp
      omega

/-! ## Claim theorems -/

/-- Claim C1: in the attention sublayer, for every (score) input with
`seq_len ≤ context_length` and every pair of positions `(i, j)` with `j > i`,
the post-softmax attention weight that position `i` assigns to position `j`
is exactly zero: the sliced causal mask marks `(i, j)` and the masked softmax
sends it to probability `0`. -/
theorem c1_attention_mask_future_zero (context s : Nat) (hs : s ≤ context)
    (scores : List ℝ) (hlen : scores.length = s)
    (i j : Nat) (hi : i < s) (hj : j < s) (hij : i < j) :
    (maskedSoftmaxRow ((maskSlice context s).getD i []) scores).getD j 0 = 0 := by
  rw [maskSlice_getD context s i hs hi]
  simp only [maskedSoftmaxRow, List.getD_eq_getElem?_getD, List.getElem?_map,
    List.getElem?_zipWith, List.getElem?_range hj]
  rw [show scores[j]? = some (scores.get ⟨j, by omega⟩) from by
    rw [List.getElem?_eq_getElem (by omega)]; rfl]
  simp [hij, zero_div]

/-- Witness for C1 at `context = 2`, `seq_len = 2`, zero scores, `(i, j) = (0, 1)`. -/
theorem c1_attention_mask_future_zero_witness :
    ((2 : Nat) ≤ 2 ∧ ([(0 : ℝ), 0]).length = 2 ∧ (0 : Nat) < 2 ∧ (1 : Nat) < 2
      ∧ (0 : Nat) < 1)
    ∧ (maskedSoftmaxRow ((maskSlice 2 2).getD 0 []) [(0 : ℝ), 0]).getD 1 0 = 0 :=
  ⟨⟨le_refl 2, rfl, by decide, by decide, by decide⟩,
    c1_attention_mask_future_zero 2 2 (le_refl 2) [(0 : ℝ), 0] rfl 0 1
      (by decide) (by decide) (by decide)⟩

/-- Claim C2: the training-step loss `F.cross_entropy(logits.flatten(0,1),
y.flatten())` equals the mean, over all `B` batch elements and all `S`
positions, of the negative log-probability that the softmax of the predicted
logits at that position assigns to the target token at that position. -/
theorem c2_training_loss_is_mean_nll (logits3 : List (List (List ℝ)))
    (targets2 : List (List Nat)) (B S : Nat) (hB : logits3.length = B)
    (hBt : targets2.length = B) (hS : ∀ r ∈ logits3, r.length = S)
    (hSt : ∀ r ∈ targets2, r.length = S) :
    trainingStepLoss logits3 targets2
      = ((logits3.zip targets2).map (fun br =>
          ((br.1.zip br.2).map (fun p => negLogProbAt p.1 p.2)).sum)).sum
        / ((B * S : Nat) : ℝ) := by
  have hzip : ∀ p ∈ logits3.zip targets2, p.1.length = p.2.length := by
    intro p hp
    have h1 := (List.of_mem_zip hp).1
    have h2 := (List.of_mem_zip hp).2
    rw [hS p.1 h1, hSt p.2 h2]
  rw [trainingStepLoss, crossEntropyMean,
    flatten_zip_flatten logits3 targets2 (by omega) hzip]
  congr 1
  · rw [List.map_flatten, List.sum_flatten, List.map_map]
    simp [Function.comp_def]
  · rw [List.length_flatten]
    have hlen : ∀ q ∈ (logits3.zip targets2).map (fun p => p.1.zip p.2), q.length = S := by
      intro q hq
      rw [List.mem_map] at hq
      obtain ⟨p, hp, hpq⟩ := hq
      rw [← hpq, List.length_zip, hS p.1 (List.of_mem_zip hp).1,
        hSt p.2 (List.of_mem_zip hp).2, Nat.min_self]
    have hflat : ((logits3.zip targets2).map (fun p => p.1.zip p.2)).flatten.length
        = ((logits3.zip targets2).map (fun p => p.1.zip p.2)).length * S :=
      flatten_length_const _ S hlen
    rw [List.length_flatten] at hflat
    rw [hflat, List.length_map, List.length_zip, hB, hBt, Nat.min_self]

/-- Witness for C2 at one batch element with two positions over a one-token
vocabulary. -/
theorem c2_training_loss_is_mean_nll_witness :
    (([[[(0 : ℝ)], [(0 : ℝ)]]] : List (List (List ℝ))).length = 1
      ∧ ([[0, 0]] : List (List Nat)).length = 1
      ∧ (∀ r ∈ ([[[(0 : ℝ)], [(0 : ℝ)]]] : List (List (List ℝ))), r.length = 2)
      ∧ (∀ r ∈ ([[0, 0]] : List (List Nat)), r.length = 2))
    ∧ trainingStepLoss [[[(0 : ℝ)], [(0 : ℝ)]]] [[0, 0]]
      = (([[[(0 : ℝ)], [(0 : ℝ)]]].zip ([[0, 0]] : List (List Nat))).map (fun br =>
          ((br.1.zip br.2).map (fun p => negLogProbAt p.1 p.2)).sum)).sum
        / ((1 * 2 : Nat) : ℝ) :=
  ⟨⟨rfl, rfl, by decide, by decide⟩,
    c2_training_loss_is_mean_nll [[[(0 : ℝ)], [(0 : ℝ)]]] [[0, 0]] 1 2 rfl rfl
      (by decide) (by decide)⟩

/-- Counterexample to claim C3: the generation loop performs no truncation.
`tinyGPT` is well formed with `context_length = 1`; the prefix `[0, 0]`
consists of valid token ids but is longer than the context, so the claimed
truncation to the last `context_length` tokens would let generation proceed —
instead the very first forward pass reaches the out-of-range
positional-embedding branch and the generation call fails. -/
theorem c3_truncation_counterexample :
    tinyGPT.wellFormed = true ∧ tinyGPT.context = 1
    ∧ (∀ t ∈ ([0, 0] : List Nat), t < tinyGPT.vocab)
    ∧ generate tinyGPT argmaxIdx [0, 0] 1 = none := by
  refine ⟨by decide, rfl, by decide, ?_⟩
  have hfwd : gptForward tinyGPT [0, 0] = none :=
    gptForward_none tinyGPT [0, 0] (by decide)
  rw [generate, hfwd]
  rfl

/-- Amended claim C3: the generation loop never truncates; it calls the model
on the full current sequence, whose length grows from `len(prefix)` to
`len(prefix) + max_new_tokens - 1` over the decoding steps.  Generation
therefore stays within the positional-embedding range — and the forward
pass's out-of-range failure branch is unreachable — exactly when
`len(prefix) + max_new_tokens ≤ context_length + 1` (nonempty prefix of
valid token ids, any sampler returning an in-range index); in that regime
the call succeeds and returns `len(prefix) + max_new_tokens` tokens. -/
theorem c3_generation_context_bound (m : GPT) (hm : m.wellFormed = true)
    (sampler : List ℝ → Nat) (hs : ∀ l, l ≠ [] → sampler l < l.length)
    (k : Nat) (p : List Nat) (hp : p ≠ []) (hvalid : ∀ t ∈ p, t < m.vocab)
    (hlen : p.length + k ≤ m.context + 1) :
    ∃ out, generate m sampler p k = some out ∧ out.length = p.length + k :=
  generate_success m hm sampler hs k p hp hvalid hlen

/-- Witness for the amended C3 at `tinyGPT` with prefix `[0]` and one new
token: `1 + 1 ≤ context + 1` holds and generation succeeds. -/
theorem c3_generation_context_bound_witness :
    (tinyGPT.wellFormed = true ∧ ([0] : List Nat) ≠ []
      ∧ (∀ t ∈ ([0] : List Nat), t < tinyGPT.vocab)
      ∧ ([0] : List Nat).length + 1 ≤ tinyGPT.context + 1)
    ∧ ∃ out, generate tinyGPT argmaxIdx [0] 1 = some out
        ∧ out.length = ([0] : List Nat).length + 1 :=
  ⟨⟨by decide, by decide, by decide, by decide⟩,
    c3_generation_context_bound tinyGPT (by decide) argmaxIdx
      (fun l hl => argmaxIdx_lt_length l hl) 1 [0] (by decide) (by decide) (by decide)⟩

/-- Claim C4: whenever the generation call returns a token sequence, that
sequence is the prefix followed by a generated continuation of exactly
`max_new_tokens` tokens — one appended token id per loop step, the loop
ending after exactly `max_new_tokens` appends. -/
theorem c4_generate_length (m : GPT) (sampler : List ℝ → Nat) :
    ∀ (k : Nat) (p out : List Nat), generate m sampler p k = some out →
      out.length = p.length + k ∧ ∃ cont, out = p ++ cont ∧ cont.length = k := by
  intro k
  induction k with
  | zero =>
    intro p out h
    rw [generate] at h
    cases h
    exact ⟨rfl, [], by simp, rfl⟩
  | succ n ih =>
    intro p out h
    rw [generate] at h
    cases hlg : gptForward m p with
    | none => rw [hlg] at h; exact Option.noConfusion h
    | some lg =>
      rw [hlg, Option.bind_eq_bind, Option.some_bind] at h
      cases hlast : lg.getLast? with
      | none => rw [hlast] at h; exact Option.noConfusion h
      | some last =>
        rw [hlast, Option.bind_eq_bind, Option.some_bind] at h
        obtain ⟨hlen, cont, hout, hcont⟩ := ih (p ++ [sampler last]) out h
        refine ⟨?_, [sampler last] ++ cont, ?_, ?_⟩
        · rw [hlen, List.length_append, List.length_singleton]
          omega
        · rw [hout, List.append_assoc]
        · rw [List.length_append, List.length_singleton, hcont]
          omega

/-- Witness for C4: with `max_new_tokens = 0` the call returns the prefix
itself, of length `len(prefix) + 0`. -/
theorem c4_generate_length_witness :
    generate tinyGPT argmaxIdx [0] 0 = some [0]
    ∧ ([0] : List Nat).length = ([0] : List Nat).length + 0
    ∧ ∃ cont, ([0] : List Nat) = [0] ++ cont ∧ cont.length = 0 := by
  have h : generate tinyGPT argmaxIdx [0] 0 = some [0] := by rw [generate]
  exact ⟨h, (c4_generate_length tinyGPT argmaxIdx 0 [0] [0] h).1,
    (c4_generate_length tinyGPT argmaxIdx 0 [0] [0] h).2⟩

/-- Claim C5: for a single logits row and any `k` with `1 ≤ k ≤ vocab_size`,
the restricted distribution produced by the notebook `topk` assigns exactly
zero probability to every index outside the selected top-k index set, and its
probabilities sum to `1`. -/
theorem c5_topk_distribution (v : List ℚ) (k : Nat) (hk : 1 ≤ k) (hkn : k ≤ v.length) :
    (∀ i, i ∉ topkIdxs v k → ((topkMatrixProbs [v] k).getD 0 []).getD i 0 = 0)
    ∧ ((topkMatrixProbs [v] k).getD 0 []).sum = 1 := by
  have hv : v ≠ [] := by
    intro hh
    rw [hh] at hkn
    simp at hkn
    omega
  exact ⟨fun i hi => topkRow_zero_not_mem v k i hi, topkRow_sum_one v k hk hv⟩

/-- Witness for C5 at `v = [5, 7, 3]`, `k = 2`. -/
theorem c5_topk_distribution_witness :
    ((1 : Nat) ≤ 2 ∧ 2 ≤ ([(5 : ℚ), 7, 3]).length)
    ∧ ((∀ i, i ∉ topkIdxs [(5 : ℚ), 7, 3] 2 →
          ((topkMatrixProbs [[(5 : ℚ), 7, 3]] 2).getD 0 []).getD i 0 = 0)
        ∧ ((topkMatrixProbs [[(5 : ℚ), 7, 3]] 2).getD 0 []).sum = 1) :=
  ⟨⟨by decide, by decide⟩,
    c5_topk_distribution [(5 : ℚ), 7, 3] 2 (by decide) (by decide)⟩

/-- Claim C6: sampling with the top-k strategy at `k = 1` returns the same
token id as the greedy strategy: whatever uniform draw `r ∈ [0, 1)` the
multinomial sampler uses, the index it returns from the `k = 1` restricted
distribution is `argmaxIdx v`, the index of the (first) maximum logit that
`torch.argmax` returns. -/
theorem c6_topk1_eq_greedy (v : List ℚ) (hv : v ≠ []) (r : ℝ) (hr : 0 ≤ r) (i : Nat)
    (hdraw : multinomialDrawSpec ((topkMatrixProbs [v] 1).getD 0 []) r i) :
    i = argmaxIdx v := by
  have hm : argmaxIdx v < v.length := argmaxIdx_lt_length v hv
  rw [topkRow_one_eq v hv] at hdraw
  obtain ⟨_, h1, h2⟩ := hdraw
  rw [set_replicate_take_sum _ _ _ _ hm] at h1 h2
  rcases Nat.lt_trichotomy i (argmaxIdx v) with hlt | he | hgt
  · rw [if_neg (by omega)] at h2
    exact absurd (lt_of_le_of_lt hr h2) (lt_irrefl 0)
  · exact he
  · rw [if_pos hgt] at h1
    rw [if_pos (by omega)] at h2
    exact absurd (lt_of_le_of_lt h1 h2) (lt_irrefl 1)

/-- Witness for C6 at `v = [1, 3]` with draw `r = 0`: the drawn index is `1`,
the argmax. -/
theorem c6_topk1_eq_greedy_witness :
    (([(1 : ℚ), 3] : List ℚ) ≠ [] ∧ (0 : ℝ) ≤ 0
      ∧ multinomialDrawSpec ((topkMatrixProbs [[(1 : ℚ), 3]] 1).getD 0 []) 0 1)
    ∧ 1 = argmaxIdx [(1 : ℚ), 3] := by
  have hdraw : multinomialDrawSpec ((topkMatrixProbs [[(1 : ℚ), 3]] 1).getD 0 []) 0 1 := by
    rw [multinomialDrawSpec, topkRow_one_eq _ (by decide)]
    have ha : argmaxIdx [(1 : ℚ), 3] = 1 := by decide
    rw [ha]
    have hP : ((List.replicate ([(1 : ℚ), 3]).length (0 : ℝ)).set 1 1) = [0, 1] := by
      simp [List.replicate]
    rw [hP]
    refine ⟨by simp, by simp, by norm_num⟩
  exact ⟨⟨by decide, le_refl 0, hdraw⟩,
    c6_topk1_eq_greedy [(1 : ℚ), 3] (by decide) 0 (le_refl 0) 1 hdraw⟩

/-- Claim C7: for a nonempty rectangular batch of valid token ids with
`seq_len = s`, `GPT.forward` fails at entry (the positional-embedding lookup
raises) whenever `s > context_length`, and for `s ≤ context_length` it
returns logits of shape `[batch, s, vocab_size]`. -/
theorem c7_forward_length_check (m : GPT) (hm : m.wellFormed = true)
    (xs : List (List Nat)) (s : Nat) (hxs : xs ≠ []) (hrect : ∀ r ∈ xs, r.length = s)
    (hvalid : ∀ r ∈ xs, ∀ t ∈ r, t < m.vocab) :
    (m.context < s → gptForwardBatch m xs = none)
    ∧ (s ≤ m.context → ∃ out, gptForwardBatch m xs = some out ∧ out.length = xs.length
        ∧ ∀ mat ∈ out, mat.length = s ∧ ∀ row ∈ mat, row.length = m.vocab) := by
  constructor
  · intro hgt
    obtain ⟨r, hr⟩ := List.exists_mem_of_ne_nil xs hxs
    apply optionMapM_none _ _ r hr
    exact gptForward_none m r (by rw [hrect r hr]; exact hgt)
  · intro hle
    obtain ⟨out, hout⟩ := optionMapM_isSome (gptForward m) xs (by
      intro r hr
      obtain ⟨lg, hlg, _, _⟩ := gptForward_some m hm r
        (by rw [hrect r hr]; exact hle) (hvalid r hr)
      exact ⟨lg, hlg⟩)
    obtain ⟨hlen, hmem⟩ := optionMapM_some_spec _ xs out hout
    refine ⟨out, hout, hlen, ?_⟩
    intro mat hmat
    obtain ⟨r, hr, hfr⟩ := hmem mat hmat
    obtain ⟨lg, hlg, hlglen, hlgrows⟩ := gptForward_some m hm r
      (by rw [hrect r hr]; exact hle) (hvalid r hr)
    rw [hlg] at hfr
    have hmatlg : mat = lg := by
      injection hfr.symm
    subst hmatlg
    exact ⟨hlglen.trans (hrect r hr), hlgrows⟩

/-- Witness for C7 at `tinyGPT` on the batch `[[0]]` (`s = 1 ≤ context`). -/
theorem c7_forward_length_check_witness :
    (tinyGPT.wellFormed = true ∧ ([[0]] : List (List Nat)) ≠ []
      ∧ (∀ r ∈ ([[0]] : List (List Nat)), r.length = 1)
      ∧ (∀ r ∈ ([[0]] : List (List Nat)), ∀ t ∈ r, t < tinyGPT.vocab))
    ∧ ((tinyGPT.context < 1 → gptForwardBatch tinyGPT [[0]] = none)
      ∧ (1 ≤ tinyGPT.context → ∃ out, gptForwardBatch tinyGPT [[0]] = some out
          ∧ out.length = ([[0]] : List (List Nat)).length
          ∧ ∀ mat ∈ out, mat.length = 1 ∧ ∀ row ∈ mat, row.length = tinyGPT.vocab)) :=
  ⟨⟨by decide, by decide, by decide, by decide⟩,
    c7_forward_length_check tinyGPT (by decide) [[0]] 1 (by decide) (by decide) (by decide)⟩

/-- Counterexample to claim C8: the claim says a sampling call fails whenever
`temperature ≤ 0`, but at `temperature = -1` the scaled softmax is a perfectly
valid probability vector (non-negative, total mass `1`), so the multinomial
draw succeeds: the code only fails at `temperature = 0`. -/
theorem c8_negative_temperature_counterexample :
    (-1 : ℚ) ≤ 0 ∧ multinomialOk (tempScaledProbs [0, 1] (-1)) := by
  refine ⟨by norm_num, softmaxList (([(0 : ℚ), 1]).map (fun q => ((q / (-1) : ℚ) : ℝ))),
    ?_, ?_, ?_⟩
  · rw [tempScaledProbs, if_neg (by norm_num)]
  · exact fun x hx => softmaxList_nonneg _ x hx
  · rw [softmaxList_sum _ (by simp)]
    norm_num

/-- Amended claim C8: a sampling call fails exactly when `temperature = 0`
(for the temperature strategy — any nonzero temperature, including negative
ones, yields a valid distribution and succeeds) or when `k < 1` or
`k > vocab_size` (for the top-k strategy: `k = 0` leaves an all-zero
probability vector that multinomial rejects, `k > vocab_size` makes
`torch.topk` itself raise); with the remaining parameter values the call
does not fail. -/
theorem c8_sampling_failure_iff (v : List ℚ) (hv : v ≠ []) (temp : ℚ) (k : Nat) :
    (multinomialOk (tempScaledProbs v temp) ↔ temp ≠ 0)
    ∧ (multinomialOk (topkCallProbs v k) ↔ (1 ≤ k ∧ k ≤ v.length)) := by
  constructor
  · constructor
    · rintro ⟨q, hq, _⟩ h0
      rw [tempScaledProbs, if_pos h0] at hq
      exact Option.noConfusion hq
    · intro h0
      refine ⟨softmaxList (v.map (fun q => ((q / temp : ℚ) : ℝ))), ?_, ?_, ?_⟩
      · rw [tempScaledProbs, if_neg h0]
      · intro x hx; exact softmaxList_nonneg _ x hx
      · rw [softmaxList_sum _ (by simpa using hv)]
        norm_num
  · constructor
    · rintro ⟨q, hq, hnn, hsum⟩
      rw [topkCallProbs] at hq
      by_cases hlen : v.length < k
      · rw [if_pos hlen] at hq
        exact Option.noConfusion hq
      · rw [if_neg hlen] at hq
        have hq2 := Option.some.inj hq
        refine ⟨?_, by omega⟩
        by_contra hk
        have hk0 : k = 0 := by omega
        subst hk0
        rw [topkRow_eq, topkIdxs_zero, List.zip_nil_left] at hq2
        simp only [rowScatter, List.foldl_nil] at hq2
        rw [← hq2, List.sum_replicate] at hsum
        simp at hsum
    · rintro ⟨hk1, hk2⟩
      refine ⟨(topkMatrixProbs [v] k).getD 0 [], ?_, ?_, ?_⟩
      · rw [topkCallProbs, if_neg (by omega)]
      · intro x hx
        rw [topkRow_eq] at hx
        rcases mem_rowScatter _ _ _ hx with h | h
        · rw [List.eq_of_mem_replicate h]
        · rw [topkPairs_map_snd] at h
          exact softmaxList_nonneg _ x h
      · rw [topkRow_sum_one v k hk1 hv]
        norm_num

/-- Witness for the amended C8 at `v = [0]`, `temperature = 1`, `k = 1`. -/
theorem c8_sampling_failure_iff_witness :
    (([(0 : ℚ)] : List ℚ) ≠ [])
    ∧ ((multinomialOk (tempScaledProbs [(0 : ℚ)] 1) ↔ (1 : ℚ) ≠ 0)
      ∧ (multinomialOk (topkCallProbs [(0 : ℚ)] 1) ↔ (1 ≤ 1 ∧ 1 ≤ ([(0 : ℚ)]).length))) :=
  ⟨by decide, c8_sampling_failure_iff [(0 : ℚ)] (by decide) 1 1⟩

/-- Claim C9: dataset item `i` is the pair of slices
`tokens[i*L : i*L+L]` / `tokens[i*L+1 : i*L+1+L]`, each right-padded with the
end-of-text id up to length `L` (stated pointwise: entry `j` is the corpus
token at offset `i*L + j` resp. `i*L + 1 + j` when that offset exists and the
padding id otherwise), and the item count `math.ceil(T / L)` equals
`(T + L - 1) / L`. -/
theorem c9_dataset_item (tokens : List Nat) (L eot i : Nat) (hL : 0 < L) :
    (wikiTextItem tokens L eot i).1.length = L
    ∧ (wikiTextItem tokens L eot i).2.length = L
    ∧ (∀ j, j < L → (wikiTextItem tokens L eot i).1.getD j 0
        = if i * L + j < tokens.length then tokens.getD (i * L + j) 0 else eot)
    ∧ (∀ j, j < L → (wikiTextItem tokens L eot i).2.getD j 0
        = if i * L + 1 + j < tokens.length then tokens.getD (i * L + 1 + j) 0 else eot)
    ∧ wikiTextCount tokens L = (tokens.length + L - 1) / L := by
  refine ⟨pad_slice_length tokens (i * L) L eot, pad_slice_length tokens (i * L + 1) L eot,
    ?_, ?_, wikiTextCount_eq tokens L hL⟩
  · intro j hj
    exact pad_slice_getD tokens (i * L) L eot j hj
  · intro j hj
    exact pad_slice_getD tokens (i * L + 1) L eot j hj

/-- Witness for C9 at `tokens = [4, 5, 6]`, `L = 2`, `eot = 9`, item `1`
(whose target slice runs short and is padded). -/
theorem c9_dataset_item_witness :
    (0 : Nat) < 2
    ∧ ((wikiTextItem [4, 5, 6] 2 9 1).1.length = 2
      ∧ (wikiTextItem [4, 5, 6] 2 9 1).2.length = 2
      ∧ (∀ j, j < 2 → (wikiTextItem [4, 5, 6] 2 9 1).1.getD j 0
          = if 1 * 2 + j < ([4, 5, 6] : List Nat).length
            then ([4, 5, 6] : List Nat).getD (1 * 2 + j) 0 else 9)
      ∧ (∀ j, j < 2 → (wikiTextItem [4, 5, 6] 2 9 1).2.getD j 0
          = if 1 * 2 + 1 + j < ([4, 5, 6] : List Nat).length
            then ([4, 5, 6] : List Nat).getD (1 * 2 + 1 + j) 0 else 9)
      ∧ wikiTextCount [4, 5, 6] 2 = (([4, 5, 6] : List Nat).length + 2 - 1) / 2) :=
  ⟨by decide, c9_dataset_item [4, 5, 6] 2 9 1 (by decide)⟩

/-- Claim C10: on a logits matrix with two rows, the notebook `topk` assigns
nonzero probability in row `0` to index `2`, which is not among row `0`'s own
top-2 indices: the `probs[:, topk_idxs]` assignment mixes the top-k index
sets of all rows, so the row-wise top-k guarantee only holds for single-row
input. -/
theorem c10_topk_multirow_leak :
    ((topkMatrixProbs [[(10 : ℚ), 9, 0, 0], [(0 : ℚ), 0, 10, 9]] 2).getD 0 []).getD 2 0 ≠ 0
    ∧ 2 ∉ topkIdxs [(10 : ℚ), 9, 0, 0] 2 := by
  constructor
  · have h0 : topkIdxs [(10 : ℚ), 9, 0, 0] 2 = [0, 1] := by decide
    have h1 : topkIdxs [(0 : ℚ), 0, 10, 9] 2 = [2, 3] := by decide
    rw [topkMatrixProbs]
    simp only [List.map_cons, List.map_nil, softVals, h0, h1, List.flatten_cons,
      List.flatten_nil, List.append_nil, List.getD_cons_zero, List.getD_cons_succ,
      softmaxList, List.sum_cons, List.sum_nil, List.length_cons, List.length_nil]
    simp only [scatterColumns, List.foldl_cons, List.foldl_nil, List.zip_cons_cons,
      List.zip_nil_right, List.replicate, List.set_cons_zero, List.set_cons_succ,
      List.map_cons, List.map_nil, List.cons_append, List.nil_append]
    simp only [List.getD_cons_zero, List.getD_cons_succ]
    positivity
  · decide
